import Mathlib

/-!
# Verification of the story-graph validator (src/generate_story.py)

This file gives a shallow embedding of the narrative-graph data model and of
the validator functions of `src/generate_story.py`, and proves or refutes the
frozen specification claims about them.

Conventions of the embedding:
* Python `dict[str, StoryParts]` (insertion ordered) is modelled as an
  association list `Graph := List (String × StoryParts)`; well-formedness
  facts (distinct keys, variants carrying their own group key as `pathname`)
  are explicit hypotheses where a proof needs them.
* Python raising code is modelled with `Except String`; pure analyzer
  functions are total Lean functions.
* `parts[key]` (which raises `KeyError` on a missing key) is modelled by
  `findPart`, returning an empty default group on a missing key; every use
  in the source is either guarded by a `key in parts` test or covered by the
  well-formedness hypotheses, so the default is never observed.
* Bounded recursions (the reachability work-list, the loop search, the
  playthrough search) take an explicit fuel argument so that they are
  structurally recursive and kernel-computable; each wrapper passes a fuel
  value that provably (or by the source's own depth guard) makes the
  zero-fuel fallback unreachable, as documented at each definition.
-/

namespace StoryGen

/-- StoryPart models the Python dataclass `StoryPart`: one variant node of a
story group.  Only the file name of `filepath` is ever used by the analyzers
(visited-set bookkeeping), so the embedding stores just that name. -/
structure StoryPart where
  text : String
  filepath_name : String
  pathname : String
  pace : Option String := none
  colour : Option String := none
  effect : Option String := none
  pov : Option String := none
  messagepov : Option String := none
  messagetitle : Option String := none
  revisit : Bool := true
  choices : List (String × String) := []
deriving Repr, DecidableEq

/-- StoryParts models the Python dataclass `StoryParts`: a named group of
variant nodes with its start/end flags. -/
structure StoryParts where
  variants : List StoryPart
  is_start : Bool := false
  is_end : Bool := false
deriving Repr, DecidableEq

/-- Property `StoryParts.revisit`: a group is revisitable only if every
variant is (`all(variant.revisit for variant in self.variants)`). -/
def StoryParts.revisit (p : StoryParts) : Bool :=
  p.variants.all (·.revisit)

/-- Graph models Python's `dict[str, StoryParts]` as an insertion-ordered
association list. -/
abbrev Graph : Type := List (String × StoryParts)

/-- Membership test `key in parts` on the Python dict. -/
def hasKey (parts : Graph) (key : String) : Bool :=
  (List.map Prod.fst parts).contains key

/-- Lookup `parts[key]` on the Python dict.  Python raises `KeyError` when
the key is absent; the embedding returns the empty default group instead and
theorems carry well-formedness hypotheses ruling that case out. -/
def findPart (parts : Graph) (key : String) : StoryParts :=
  match List.lookup key parts with
  | some p => p
  | none => { variants := [] }

/-- Function `all_nodes`: every variant of every group, in graph order. -/
def all_nodes (parts : Graph) : List StoryPart :=
  List.flatMap parts (fun kv => kv.2.variants)

/-- Function `starting_nodes`: every variant of every start group. -/
def starting_nodes (parts : Graph) : List StoryPart :=
  List.flatMap parts (fun kv => if kv.2.is_start then kv.2.variants else [])

/-- Function `ending_nodes`: every variant of every end group. -/
def ending_nodes (parts : Graph) : List StoryPart :=
  List.flatMap parts (fun kv => if kv.2.is_end then kv.2.variants else [])

/-- Function `invalid_links`: for every non-end group, report each variant
having some choice whose target is not a key of the graph.  (The source's
final `if choice is None` test is dead code: a `None` target would already
have failed the `choice not in parts.keys()` test and broken out.) -/
def invalid_links (parts : Graph) : List StoryPart :=
  List.flatMap parts (fun kv =>
    if kv.2.is_end then []
    else kv.2.variants.filter (fun part =>
      (part.choices.map Prod.snd).any (fun choice => !hasKey parts choice)))

/-- One work-list pass of `unreachable_nodes`.  The Python loop pops from the
END of the list `stack`; the embedding keeps the stack in pop order (list
head = Python's last element), so `stack.extend(vs)` becomes prepending
`vs.reverse`.  The fuel argument bounds the number of loop iterations; the
wrapper `unreachable_nodes` passes a bound proved sufficient
(`dfs_visit_complete`), making the zero-fuel fallback unreachable there. -/
def dfs_visit (parts : Graph) : Nat → List StoryPart → List String → List String
  | _, [], visited => visited
  | 0, _ :: _, visited => visited
  | fuel + 1, node :: stack, visited =>
    if node.filepath_name ∈ visited then
      dfs_visit parts fuel stack visited
    else
      let visited := node.filepath_name :: visited
      if (findPart parts node.pathname).is_end then
        dfs_visit parts fuel stack visited
      else
        let nexts := List.flatMap (node.choices.map Prod.snd) (fun choice =>
          if hasKey parts choice then (findPart parts choice).variants else [])
        dfs_visit parts fuel (nexts.reverse ++ stack) visited

/-- Largest choice count over the graph's nodes, used for the fuel bound. -/
def maxChoices (parts : Graph) : Nat :=
  ((all_nodes parts).map (fun n => n.choices.length)).foldr max 0

/-- Termination measure of the reachability work-list: every iteration of
the Python `while` loop strictly decreases it (`dfs_visit_complete`), so it
bounds the number of iterations still to run. -/
def dfs_measure (parts : Graph) (stack : List StoryPart) (visited : List String) : Nat :=
  ((((all_nodes parts ++ stack).map (fun n => n.filepath_name)).toFinset
      \ visited.toFinset).card) * (maxChoices parts * (all_nodes parts).length + 1)
    + stack.length

/-- Fuel passed to the reachability work-list: the measure of its initial
state, an upper bound on the number of loop iterations. -/
def dfs_fuel (parts : Graph) : Nat :=
  dfs_measure parts (starting_nodes parts).reverse []

/-- Function `unreachable_nodes`: work-list traversal from every start
variant, marking visited nodes by file name, not descending past end groups;
returns every node whose file name was never visited.  If there are no start
variants the whole graph is returned. -/
def unreachable_nodes (parts : Graph) : List StoryPart :=
  let stack := starting_nodes parts
  let every_node := all_nodes parts
  if stack = [] then every_node
  else
    let visited := dfs_visit parts (dfs_fuel parts) stack.reverse []
    every_node.filter (fun node => !(node.filepath_name ∈ visited))

/-! ## Character-level string helpers

Core string functions such as `String.splitOn` are defined by well-founded
recursion and do not reduce inside the kernel, so the embedding uses its own
structurally recursive equivalents of the Python string operations. -/

/-- Prefix test on character lists. -/
def charsPrefix : List Char → List Char → Bool
  | [], _ => true
  | _ :: _, [] => false
  | a :: as, b :: bs => a = b && charsPrefix as bs

/-- Python `str.strip()`: drop leading and trailing whitespace. -/
def pyStrip (s : String) : String :=
  String.mk (((s.toList.dropWhile Char.isWhitespace).reverse.dropWhile
    Char.isWhitespace).reverse)

/-- Python `str.startswith(pre)`. -/
def pyStartsWith (s pre : String) : Bool :=
  charsPrefix pre.toList s.toList

/-- Split a character list at every occurrence of `'\n'`. -/
def splitLinesChars : List Char → List (List Char)
  | [] => [[]]
  | c :: rest =>
    if c = '\n' then [] :: splitLinesChars rest
    else
      match splitLinesChars rest with
      | l :: ls => (c :: l) :: ls
      | [] => [[c]]

/-- Python `str.splitlines()` restricted to `\n` separators: a trailing
newline produces no final empty line and the empty string has no lines. -/
def pySplitlines (s : String) : List String :=
  let l := (splitLinesChars s.toList).map String.mk
  if l.getLast? = some "" then l.dropLast else l

/-- Split a character list on a (non-empty) separator, greedy left to
right.  The fuel is the remaining length: every step consumes at least one
character, so the zero-fuel case coincides with the exhausted input. -/
def splitSepGo (sep : List Char) : Nat → List Char → List (List Char)
  | _, [] => [[]]
  | 0, _ :: _ => [[]]
  | fuel + 1, c :: rest =>
    if charsPrefix sep (c :: rest) then
      [] :: splitSepGo sep fuel ((c :: rest).drop sep.length)
    else
      match splitSepGo sep fuel rest with
      | l :: ls => (c :: l) :: ls
      | [] => [[c]]

/-- Python `str.split(sep)` without a split limit (for non-empty `sep`). -/
def pySplitOn (s sep : String) : List String :=
  (splitSepGo sep.toList s.toList.length s.toList).map String.mk

/-- Join pieces with a separator, Python `sep.join(pieces)`. -/
def joinSep (sep : String) : List String → String
  | [] => ""
  | [x] => x
  | x :: y :: xs => x ++ sep ++ joinSep sep (y :: xs)

/-- Lexicographic strict comparison of character lists (code-point order),
Python's `<` on strings. -/
def charListLt : List Char → List Char → Bool
  | [], [] => false
  | [], _ :: _ => true
  | _ :: _, [] => false
  | a :: as, b :: bs => if a < b then true else if a = b then charListLt as bs else false

/-- Python `<` on strings. -/
def pyStrLt (a b : String) : Bool := charListLt a.toList b.toList

/-- Python backslash replacement `str.replace` with the single-character
pattern the source uses: every backslash becomes a forward slash. -/
def pyReplaceBackslash (s : String) : String :=
  String.mk (s.toList.map (fun c => if c = '\\' then '/' else c))

/-! ## Cycle analysis (`looping_nodes` and friends) -/

/-- Recursive helper `depth_search` of `looping_nodes`: explore every choice
path from a start variant carrying the ancestor path by value; record a loop
when the current node's group name already occurs among ancestor names; stop
at end groups; abandon a branch whose ancestor path exceeds twice the number
of groups.  Loops are collected in discovery order (the source appends to a
shared list).  The fuel argument makes the recursion structural: the source's
own depth guard stops every branch at ancestor length `2*len(parts) + 1`, so
with the wrapper's fuel of `2*len(parts) + 2` the zero-fuel fallback is never
reached (fuel at a call is `2*len(parts) + 2 - ancestors.length ≥ 1`). -/
def depth_search (parts : Graph) : Nat → StoryPart → List StoryPart → List (List StoryPart)
  | 0, _, _ => []
  | fuel + 1, node, ancestors =>
    let ancestor_names := ancestors.map (·.pathname)
    if node.pathname ∈ ancestor_names then [ancestors ++ [node]]
    else if (findPart parts node.pathname).is_end then []
    else if ancestors.length > 2 * parts.length then []
    else
      List.flatMap (node.choices.map Prod.snd) (fun choice =>
        if hasKey parts choice then
          if !(findPart parts choice).revisit && choice ∈ ancestor_names then []
          else List.flatMap (findPart parts choice).variants (fun variant =>
            depth_search parts fuel variant (ancestors ++ [node]))
        else [])

/-- Python's strict lexicographic comparison between two tuples/lists of
strings, as used by `min` on the rotation tuples. -/
def pyListLt : List String → List String → Bool
  | [], [] => false
  | [], _ :: _ => true
  | _ :: _, [] => false
  | a :: as, b :: bs => if pyStrLt a b then true else if a = b then pyListLt as bs else false

/-- Python `min` over a list of name tuples: the first minimal element.
Python raises on an empty iterable; loops are never empty, so the default
value for that case is never observed. -/
def pyListMin (l : List (List String)) : List String :=
  match l with
  | [] => []
  | x :: xs => xs.foldl (fun acc y => if pyListLt y acc then y else acc) x

/-- Python equality between a tuple and a list.  In Python a tuple never
compares equal to a list, whatever their elements, so this is constantly
false.  The source's `minimum == [part.pathname for part in loop]` is such a
comparison (`minimum` is a tuple), which is why the rotation loop in
`canonical_looping` never fires. -/
def pyTupleEqList (_tup _lst : List String) : Bool := false

/-- Function `canonical_looping`: truncate a recorded loop so that it starts
at the first occurrence of the last node's group name, compute the
lexicographically smallest rotation of the truncated name sequence, then scan
for a rotation index whose (unrotated!) name list equals that tuple — a
comparison that always fails in Python because a tuple never equals a list —
and finally return the truncated loop unrotated. -/
def canonical_looping (loop : List StoryPart) : List StoryPart × List String :=
  let names := loop.map (·.pathname)
  let start := names.indexOf ((names.getLast?).getD "")
  let loop := loop.drop start
  let names := names.drop start
  let rotations := (List.range names.length).map (fun i => names.drop i ++ names.take i)
  let minimum := pyListMin rotations
  match (List.range loop.length).find? (fun _ => pyTupleEqList minimum (loop.map (·.pathname))) with
  | some i => (loop.drop i ++ loop.take i, names.drop i ++ names.take i)
  | none => (loop, names)

/-- Function `looping_nodes`: collect every loop discovered by
`depth_search` from every start variant, then keep the first loop for each
distinct canonical name sequence. -/
def looping_nodes (parts : Graph) : List (List StoryPart) :=
  let loops := List.flatMap (starting_nodes parts) (fun node =>
    depth_search parts (2 * parts.length + 2) node [])
  (loops.foldl (fun acc loop =>
    let cl := canonical_looping loop
    if cl.2 ∈ acc.2 then acc else (acc.1 ++ [cl.1], acc.2 ++ [cl.2]))
    (([] : List (List StoryPart)), ([] : List (List String)))).1

/-- Inner search of `can_escape` (textually identical in
`escapable_looping_nodes` and `innescapable_looping_nodes`): from a node,
look for any path to an end group, keeping a per-search visited-group set.
The source's two branches on `choice not in loop_names` have identical
bodies; the embedding keeps the branch to mirror the source.  Fuel bounds the
recursion depth (in Python the growing visited set bounds it); the partition
theorems do not depend on the bound, only on both wrappers sharing it. -/
def escape_search (parts : Graph) (loop_names : List String) :
    Nat → StoryPart → List String → Bool
  | 0, _, _ => false
  | fuel + 1, node, visited =>
    let thispart := findPart parts node.pathname
    if thispart.is_end then true
    else if node.pathname ∈ visited then false
    else
      let visited := node.pathname :: visited
      thispart.variants.any (fun variant =>
        (variant.choices.map Prod.snd).any (fun choice =>
          if !hasKey parts choice then false
          else if !(choice ∈ loop_names) then
            (findPart parts choice).variants.any (fun v =>
              escape_search parts loop_names fuel v visited)
          else
            (findPart parts choice).variants.any (fun v =>
              escape_search parts loop_names fuel v visited)))

/-- Helper `can_escape`: some node of the loop reaches an end group. -/
def can_escape (parts : Graph) (loop : List StoryPart) : Bool :=
  loop.any (fun node =>
    escape_search parts (loop.map (·.pathname)) (parts.length + 1) node [])

/-- Function `escapable_looping_nodes`: the loops from which an ending is
reachable. -/
def escapable_looping_nodes (parts : Graph) : List (List StoryPart) :=
  (looping_nodes parts).filter (fun loop => can_escape parts loop)

/-- Function `innescapable_looping_nodes`: the loops from which no ending is
reachable (same loop list, same `can_escape` code, complementary filter). -/
def innescapable_looping_nodes (parts : Graph) : List (List StoryPart) :=
  (looping_nodes parts).filter (fun loop => !can_escape parts loop)

/-! ## Playthrough enumeration (`abnormal_paths`) -/

/-- State threaded through `traverse`: the collected complete playthroughs
and the set of already-explored path name sequences. -/
structure TraverseState where
  all_paths : List (List StoryPart)
  visited_paths : List (List String)
deriving Repr, DecidableEq

/-- Recursive helper `traverse` of `abnormal_paths`.  Checks, in source
order: the length guard on the incoming path, the exact-path memoisation,
then either records a complete playthrough (end group reached, or no variant
of the group has any valid choice) or expands every variant's every valid,
revisit-permitted choice.  The fuel makes the recursion structural; the
wrapper passes `5*len(parts) + 2`, and since every call site grows the path
by one, fuel zero can only be reached with `len(path) = 5*len(parts) + 2`,
where the source's length guard returns the state unchanged exactly as the
zero-fuel fallback does — the two definitions agree at every reachable
call. -/
def traverse (parts : Graph) : Nat → StoryPart → List StoryPart → TraverseState → TraverseState
  | 0, _, _, st => st
  | fuel + 1, node, path, st =>
    let new_path := path ++ [node]
    let pathnames := new_path.map (·.pathname)
    if path.length > 5 * parts.length then st
    else if pathnames ∈ st.visited_paths then st
    else
      let st : TraverseState := ⟨st.all_paths, pathnames :: st.visited_paths⟩
      let this_part := findPart parts node.pathname
      let has_valid_choices := this_part.variants.any (fun variant =>
        (variant.choices.map Prod.snd).any (fun choice => hasKey parts choice))
      if this_part.is_end || !has_valid_choices then
        ⟨st.all_paths ++ [new_path], st.visited_paths⟩
      else
        this_part.variants.foldl (fun st variant =>
          (variant.choices.map Prod.snd).foldl (fun st choice =>
            if !hasKey parts choice then st
            else if choice ∈ pathnames && !(findPart parts choice).revisit then st
            else (findPart parts choice).variants.foldl (fun st next_variant =>
              traverse parts fuel next_variant new_path st) st) st) st

/-- Playthroughs collected by running `traverse` from every start variant
against one shared state, in source order. -/
def enumerate_paths (parts : Graph) : List (List StoryPart) :=
  ((starting_nodes parts).foldl (fun st start =>
    traverse parts (5 * parts.length + 2) start [] st) ⟨[], []⟩).all_paths

/-- Function `abnormal_paths`: all playthroughs whose length differs from
the arithmetic mean playthrough length by more than 1; empty when no
playthrough was collected.  Python's float test
`abs(len(path) - total/n) > 1` is modelled exactly by the cross-multiplied
integer comparison `abs(len(path)*n - total) > n` (the theorem
`abnormal_filter_iff` restates it as the rational inequality; at the
magnitudes reachable here the float computation is exact at the decision
boundary, so the two agree). -/
def abnormal_paths (parts : Graph) : List (List StoryPart) :=
  let all_paths := enumerate_paths parts
  if all_paths = [] then []
  else
    let total : Nat := (all_paths.map (fun p => p.length)).sum
    all_paths.filter (fun path =>
      ((path.length * all_paths.length : Int) - total).natAbs > all_paths.length)

/-! ## Marker regexes

The marker patterns of the source all have the shape `/(alt1|alt2|...)` with
one capturing group around an ordered alternation of literal words plus, for
colour and pace, one parameterised literal (`colour #hex`, `speed N ms`).
Python's `findall` scans left to right, tries the alternation at each `/`,
takes the first alternative that matches, returns the group's text, and
resumes after the match.  The engine below implements exactly that. -/

/-- Shape of one alternative of a marker regex. -/
inductive RegexAlt where
  | lit : String → RegexAlt
  | colourHex : RegexAlt
  | speedMs : RegexAlt
deriving Repr, DecidableEq

/-- Lowercase-hex digit test, the character class `[0-9a-f]` of the source's
HEX_COLOURS pattern. -/
def isHexDigit (c : Char) : Bool := c.isDigit || ('a' ≤ c && c ≤ 'f')

/-- Match one alternative at the given position (the character after the
marker introducer), returning the number of characters it consumes.
The `colourHex` alternative is `colour #(?:[0-9a-f]{3}){1,2}` (greedy: six
hex digits preferred over three); `speedMs` is `speed \d+\s?ms` (the digit
run is maximal, which is exact here because no digit can begin `\s?ms`). -/
def altMatchAt (alt : RegexAlt) (s : List Char) : Option Nat :=
  match alt with
  | .lit l => if charsPrefix l.toList s then some l.toList.length else none
  | .colourHex =>
    if charsPrefix "colour #".toList s then
      let rest := s.drop 8
      if (rest.take 6).length = 6 && (rest.take 6).all isHexDigit then some 14
      else if (rest.take 3).length = 3 && (rest.take 3).all isHexDigit then some 11
      else none
    else none
  | .speedMs =>
    if charsPrefix "speed ".toList s then
      let rest := s.drop 6
      let ds := rest.takeWhile Char.isDigit
      if ds.length = 0 then none
      else
        let rest2 := rest.drop ds.length
        let wsTaken : Nat := match rest2 with
          | c :: _ => if c.isWhitespace then 1 else 0
          | [] => 0
        if charsPrefix ['m', 's'] (rest2.drop wsTaken) then
          some (6 + ds.length + wsTaken + 2)
        else none
    else none

/-- First alternative of the ordered alternation that matches, as in a
Python regex. -/
def firstAltMatch (alts : List RegexAlt) (s : List Char) : Option Nat :=
  alts.findSome? (fun alt => altMatchAt alt s)

/-- Scanner of `re.findall` for a `/(...)` marker pattern: at each `/`, try
the alternation on the following characters; on success record the group's
text and resume after it, otherwise advance one character.  The fuel is the
remaining character count (every step consumes at least one character), so
the zero-fuel case coincides with the exhausted-input case. -/
def findall_go (alts : List RegexAlt) : Nat → List Char → List String
  | _, [] => []
  | 0, _ :: _ => []
  | fuel + 1, c :: rest =>
    if c = '/' then
      match firstAltMatch alts rest with
      | some n => String.mk (rest.take n) :: findall_go alts fuel (rest.drop n)
      | none => findall_go alts fuel rest
    else findall_go alts fuel rest

/-- Python `PATTERN.findall(text)` for a `/(...)` marker pattern. -/
def findall_alts (alts : List RegexAlt) (text : String) : List String :=
  findall_go alts text.toList.length text.toList

/-- Constant SPEEDS of the source, as the ordered literal alternatives. -/
def SPEEDS : List String :=
  ["fastest", "faster", "fast", "slowest", "slower", "slow"]

/-- Modelled from the spec: the named-colour vocabulary NAMED_COLOURS.  The
source reads it at import time from the repository file `src/named_colours`,
which is not among the given sources; the spec describes it only as a global
vocabulary table of colour names, so a representative list of CSS colour
names stands in.  Every concrete theorem below uses hex-literal colour
markers, whose acceptance does not depend on this list (none of these names
is a prefix of a string beginning "colour #"). -/
def NAMED_COLOURS : List String :=
  ["red", "orange", "yellow", "green", "blue", "purple", "pink", "brown",
   "black", "white", "grey"]

/-- Alternation of PACE_PATTERN: the speed words then `speed \d+\s?ms`. -/
def PACE_alts : List RegexAlt := SPEEDS.map .lit ++ [.speedMs]

/-- Alternation of COLOUR_PATTERN: the named colours then
`colour #(?:[0-9a-f]{3}){1,2}`. -/
def COLOUR_alts : List RegexAlt := NAMED_COLOURS.map .lit ++ [.colourHex]

/-- Alternation of EFFECT_PATTERN. -/
def EFFECT_alts : List RegexAlt :=
  (["shake", "nudge", "bounce", "slide-left", "slide-right", "pulse", "blink",
    "grow", "pop", "glow", "tilt", "wobble", "wave"]).map .lit

/-- Function `PACE_PATTERN.findall`. -/
def PACE_findall (text : String) : List String := findall_alts PACE_alts text

/-- Function `COLOUR_PATTERN.findall`. -/
def COLOUR_findall (text : String) : List String := findall_alts COLOUR_alts text

/-- Function `EFFECT_PATTERN.findall`. -/
def EFFECT_findall (text : String) : List String := findall_alts EFFECT_alts text

/-- ASCII word-character test, Python's `\w` restricted to ASCII (no
document in the claims uses non-ASCII identifiers). -/
def isWordChar (c : Char) : Bool := c.isAlphanum || c = '_'

/-- Python `META_MESSAGE_PATTERN.match(s)`, pattern `message-pov \w+`
anchored at the start of the string. -/
def META_MESSAGE_PATTERN_match (s : String) : Bool :=
  pyStartsWith s "message-pov " &&
    (match s.toList.drop 12 with
     | c :: _ => isWordChar c
     | [] => false)

/-- Python `META_MESSAGE_TITLE_PATTERN.match(s)`, pattern
`message-title .+` anchored at the start of the string. -/
def META_MESSAGE_TITLE_PATTERN_match (s : String) : Bool :=
  pyStartsWith s "message-title " &&
    (match s.toList.drop 14 with
     | c :: _ => c ≠ '\n'
     | [] => false)

/-! ## Marker consistency checks -/

/-- Constant EXCESSIVE_THRESHOLD of the source.  Note that the source never
uses it: every `excessive_*` wrapper calls `excessive_commands` without a
threshold argument, so the default of one half applies everywhere. -/
def EXCESSIVE_THRESHOLD : ℚ := mkRat 1 4

/-- Python `getattr(part, property, None)` on the StoryPart dataclass,
restricted to its string-typed attributes.  An attribute name containing a
hyphen (the source passes "message-pov" and "message-title") is not a Python
identifier, so no dataclass attribute ever carries it and `getattr` yields
the `None` default.  (The non-string attributes `filepath`, `revisit` and
`choices` are never requested by any call site.) -/
def getattr_str (part : StoryPart) (property : String) : Option String :=
  if property = "text" then some part.text
  else if property = "pathname" then some part.pathname
  else if property = "pace" then part.pace
  else if property = "colour" then part.colour
  else if property = "effect" then part.effect
  else if property = "pov" then part.pov
  else if property = "messagepov" then part.messagepov
  else if property = "messagetitle" then part.messagetitle
  else none

/-- Function `command_metadata`: report each node whose attribute named
`property` holds a truthy (non-None, non-empty) value not matched by the
concern's metadata regex. -/
def command_metadata (parts : Graph) (regex_match : String → Bool)
    (property : String) : List StoryPart :=
  List.flatMap parts (fun kv => kv.2.variants.filter (fun part =>
    match getattr_str part property with
    | some v => v ≠ "" && !regex_match v
    | none => false))

/-- Line scan of `commands_in_text` for one node: some non-blank line either
carries more than one marker while multiples are not allowed, or carries a
marker while the stripped line does not start with "/". -/
def commands_flag (findall : String → List String) (allow_multiple : Bool)
    (part : StoryPart) : Bool :=
  (pySplitlines part.text).any (fun line =>
    let stripped := pyStrip line
    stripped ≠ "" &&
      ((!allow_multiple && (findall stripped).length > 1) ||
        (!(findall stripped).isEmpty && !pyStartsWith stripped "/")))

/-- Function `commands_in_text`: report each node flagged by the line scan
(the source appends the node and breaks at its first offending line). -/
def commands_in_text (parts : Graph) (findall : String → List String)
    (allow_multiple : Bool) : List StoryPart :=
  List.flatMap parts (fun kv =>
    kv.2.variants.filter (commands_flag findall allow_multiple))

/-- Multiplicity of the most common element,
`Counter(l).most_common(1)[0][1]`. -/
def maxCount (l : List String) : Nat :=
  (l.map (fun x => l.count x)).foldr max 0

/-- Per-node test of `excessive_commands`: the node has non-blank lines, its
whole text has marker occurrences, and the most frequent marker value
accounts for more than `threshold` of the non-blank lines while there are
more than four of them.  Python's float comparison
`most_used / len(lines) > threshold` is modelled exactly by the
cross-multiplied integer comparison (the line count is positive here, and
the theorem `excessive_flag_iff` restates it as the rational inequality). -/
def excessive_flag (findall : String → List String) (threshold : ℚ)
    (part : StoryPart) : Bool :=
  let lines := (pySplitlines part.text).filter (fun line => pyStrip line ≠ "")
  if lines = [] then false
  else
    let mtch := findall part.text
    if mtch = [] then false
    else
      let most_used := maxCount mtch
      decide (threshold.num * lines.length < most_used * threshold.den) &&
        lines.length > 4

/-- Function `excessive_commands` (default threshold one half at every call
site of the source). -/
def excessive_commands (parts : Graph) (findall : String → List String)
    (threshold : ℚ) : List StoryPart :=
  List.flatMap parts (fun kv => kv.2.variants.filter (excessive_flag findall threshold))

/-- Wrapper `colour_markers`. -/
def colour_markers (parts : Graph) : List StoryPart :=
  commands_in_text parts COLOUR_findall false

/-- Wrapper `excessive_colours`: note the source passes no threshold, so the
default of one half applies (EXCESSIVE_THRESHOLD is never used). -/
def excessive_colours (parts : Graph) : List StoryPart :=
  excessive_commands parts COLOUR_findall (mkRat 1 2)

/-- Wrapper `pace_markers`. -/
def pace_markers (parts : Graph) : List StoryPart :=
  commands_in_text parts PACE_findall false

/-- Wrapper `excessive_pacing` (default threshold one half). -/
def excessive_pacing (parts : Graph) : List StoryPart :=
  excessive_commands parts PACE_findall (mkRat 1 2)

/-- Wrapper `effect_markers`: the only concern allowing several markers on
one line. -/
def effect_markers (parts : Graph) : List StoryPart :=
  commands_in_text parts EFFECT_findall true

/-- Wrapper `excessive_effects` (default threshold one half). -/
def excessive_effects (parts : Graph) : List StoryPart :=
  excessive_commands parts EFFECT_findall (mkRat 1 2)

/-- Wrapper `message_metadata`: the source requests the attribute
"message-pov", which no dataclass attribute matches. -/
def message_metadata (parts : Graph) : List StoryPart :=
  command_metadata parts META_MESSAGE_PATTERN_match "message-pov"

/-- Wrapper `message_title_metadata`: the source requests the attribute
"message-title", which no dataclass attribute matches. -/
def message_title_metadata (parts : Graph) : List StoryPart :=
  command_metadata parts META_MESSAGE_TITLE_PATTERN_match "message-title"

/-! ## Ingestion (`parse_markdown` and the per-document construction) -/

/-- Values produced by the external YAML front-matter parser, restricted to
the shapes the source consumes (string keys, scalar or mapping values). -/
inductive Yaml where
  | null : Yaml
  | bool (b : Bool) : Yaml
  | str (s : String) : Yaml
  | dict (entries : List (String × Yaml)) : Yaml

/-- Python truthiness of a YAML value. -/
def Yaml.truthy : Yaml → Bool
  | .null => false
  | .bool b => b
  | .str s => s ≠ ""
  | .dict entries => !entries.isEmpty

/-- Python `metadata.get(key, default)`: succeeds on a mapping, raises
`AttributeError` on anything else (`None`, a scalar, ...). -/
def Yaml.get (m : Yaml) (key : String) (default : Yaml) : Except String Yaml :=
  match m with
  | .dict entries => .ok ((entries.lookup key).getD default)
  | _ => .error "AttributeError: object has no attribute get"

/-- Python `.items()` of a supposed mapping: raises on anything else. -/
def Yaml.items : Yaml → Except String (List (String × Yaml))
  | .dict entries => .ok entries
  | _ => .error "AttributeError: object has no attribute items"

/-- View of a YAML value as an optional-string dataclass field.  The
dataclass declares `pace` etc. as `str | None`; documents whose front matter
carries another scalar type there are outside the modelled state space. -/
def Yaml.asStrOpt : Yaml → Option String
  | .str s => some s
  | _ => none

/-- Python `s.split(sep, 2)`: split on at most the first two occurrences. -/
def pySplit2 (sep : String) (s : String) : List String :=
  let ps := pySplitOn s sep
  if ps.length ≤ 3 then ps
  else ps.take 2 ++ [joinSep sep (ps.drop 2)]

/-- Function `parse_markdown`, with the external YAML parser `safe_load` as
a parameter: strip the content; without a leading "---" return empty
metadata and the text; otherwise split on "---" at most twice and unpack
into exactly three pieces — content whose leading "---" is not followed by a
second "---" yields only two pieces and the unpacking raises `ValueError`. -/
def parse_markdown (safe_load : String → Yaml) (content : String) :
    Except String (Yaml × String) :=
  let content := pyStrip content
  if !pyStartsWith content "---" then .ok (.dict [], content)
  else
    match pySplit2 "---" content with
    | [_, meta, body] => .ok (safe_load meta, pyReplaceBackslash (pyStrip body))
    | _ => .error "ValueError: not enough values to unpack"

/-- Per-document StoryPart construction of `find_parts` (everything after
`parse_markdown` for one document): build the choice mapping, dropping
entries with a falsy label or target, and read each metadata field with its
default.  Every `metadata.get` raises when the parsed front matter is not a
mapping (e.g. `safe_load` returned `None` for an empty block or a bare
scalar), and `.items()` raises when the "choices" value is not a mapping. -/
def make_part (pathname filepath_name : String) (metadata : Yaml)
    (body : String) : Except String StoryPart := do
  let choicesY ← metadata.get "choices" (.dict [])
  let items ← choicesY.items
  let choices := items.filterMap (fun kv =>
    if kv.1 ≠ "" && kv.2.truthy then
      match kv.2 with
      | .str v => some (kv.1, v)
      | _ => none
    else none)
  let pace ← metadata.get "pace" .null
  let colour ← metadata.get "colour" .null
  let effect ← metadata.get "effect" .null
  let pov ← metadata.get "pov" .null
  let revisit ← metadata.get "revisit" (.bool true)
  let messagepov ← metadata.get "message-pov" .null
  let messagetitle ← metadata.get "message-title" .null
  return { text := body
           filepath_name := filepath_name
           pathname := pathname
           pace := pace.asStrOpt
           colour := colour.asStrOpt
           effect := effect.asStrOpt
           pov := pov.asStrOpt
           messagepov := messagepov.asStrOpt
           messagetitle := messagetitle.asStrOpt
           revisit := revisit.truthy
           choices := choices }

/-- Group construction of `find_parts` for the first document of a group:
the start and end flags are read with a false default. -/
def make_group (metadata : Yaml) (this_part : StoryPart) :
    Except String StoryParts := do
  let s ← metadata.get "start" (.bool false)
  let e ← metadata.get "end" (.bool false)
  return { variants := [this_part], is_start := s.truthy, is_end := e.truthy }

/-! ## Well-formedness of graphs built by `find_parts`

`find_parts` keys every group by the `pathname` it also stores in each of
the group's variants, Python dict keys are unique, and distinct documents
have distinct paths.  The properties below record the parts of this needed
by individual theorems. -/

/-- Group keys are pairwise distinct (Python dict keys always are). -/
def keys_nodup (parts : Graph) : Prop := (parts.map Prod.fst).Nodup

/-- Every variant stores the key of its own group as its `pathname`, as
`find_parts` arranges. -/
def pathname_coherent (parts : Graph) : Prop :=
  ∀ kv ∈ parts, ∀ v ∈ kv.2.variants, v.pathname = kv.1

/-- File names distinguish nodes.  `find_parts` guarantees distinct full
paths, but `unreachable_nodes` keys its visited set on the final path
component only, so this is a genuine extra assumption. -/
def filenames_injective (parts : Graph) : Prop :=
  ∀ a ∈ all_nodes parts, ∀ b ∈ all_nodes parts,
    a.filepath_name = b.filepath_name → a = b

instance (parts : Graph) : Decidable (keys_nodup parts) := by
  unfold keys_nodup; infer_instance

instance (parts : Graph) : Decidable (pathname_coherent parts) := by
  unfold pathname_coherent; infer_instance

instance (parts : Graph) : Decidable (filenames_injective parts) := by
  unfold filenames_injective; infer_instance

/-- Invariant of the reachability work-list: every already-visited non-end
node has each variant of each of its valid choice targets either already
visited or still on the stack. -/
def dfs_inv (parts : Graph) (stack : List StoryPart) (visited : List String) : Prop :=
  ∀ node ∈ all_nodes parts, node.filepath_name ∈ visited →
    (findPart parts node.pathname).is_end = false →
    ∀ c ∈ node.choices.map Prod.snd, hasKey parts c = true →
      ∀ v ∈ (findPart parts c).variants,
        v.filepath_name ∈ visited ∨ v ∈ stack

/-- Closure property of the final visited set: stepping from a visited
non-end node through any valid choice stays inside the set. -/
def visited_closed (parts : Graph) (visited : List String) : Prop :=
  ∀ node ∈ all_nodes parts, node.filepath_name ∈ visited →
    (findPart parts node.pathname).is_end = false →
    ∀ c ∈ node.choices.map Prod.snd, hasKey parts c = true →
      ∀ v ∈ (findPart parts c).variants, v.filepath_name ∈ visited

/-- Reachability of a group from some start group along valid choice links
whose intermediate groups are not end groups — the hypothesis of the amended
claim C4 (the traversal never descends past an end group, so reachability
only through an end group does not help). -/
inductive ReachableGroup (parts : Graph) : String → Prop
  | start (k : String) : hasKey parts k = true →
      (findPart parts k).is_start = true → ReachableGroup parts k
  | step (k c : String) (v : StoryPart) : ReachableGroup parts k →
      (findPart parts k).is_end = false →
      v ∈ (findPart parts k).variants → c ∈ v.choices.map Prod.snd →
      hasKey parts c = true → ReachableGroup parts c

/-! ## Claim-side definitions

The next definitions formalise wording of the claims themselves (not source
code); each is used to state a counterexample against the claim it names. -/

/-- Claim C4's notion of the valid link targets of a group: choice targets
of its variants that are keys of the graph. -/
def link_targets (parts : Graph) (k : String) : List String :=
  List.flatMap (findPart parts k).variants (fun v =>
    (v.choices.map Prod.snd).filter (fun c => hasKey parts c))

/-- One closure step over group names for claim C4's hypothesis. -/
def reachable_step (parts : Graph) (S : List String) : List String :=
  S ++ ((parts.map Prod.fst).filter (fun k =>
    !(k ∈ S) && S.any (fun s => k ∈ link_targets parts s)))

/-- Group names transitively reachable from the start groups via valid
choice links only, as claim C4's hypothesis reads (no restriction about end
groups). -/
def reachable_groups (parts : Graph) : List String :=
  (reachable_step parts)^[parts.length]
    ((parts.filter (fun kv => kv.2.is_start)).map Prod.fst)

/-- Hypothesis of claim C4, following its words: every group is transitively
reachable from some start group via valid choice links only. -/
def all_groups_link_reachable (parts : Graph) : Bool :=
  (parts.map Prod.fst).all (fun k => k ∈ reachable_groups parts)

/-- Canonical form prescribed by claim C2, following its words: rotate the
name sequence to start at the repeated group, then take the
lexicographically smallest rotation. -/
def spec_canonical_names (names : List String) : List String :=
  let start := names.indexOf ((names.getLast?).getD "")
  let names := names.drop start
  pyListMin ((List.range names.length).map (fun i => names.drop i ++ names.take i))

/-- Flag condition of claim C3, following its words: the node's prose
contains marker occurrences whose single most frequent distinct value
accounts for more than the given threshold fraction of the node's non-blank
lines, and the node has more than four non-blank lines. -/
def spec_excessive_flag (findall : String → List String) (threshold : ℚ)
    (part : StoryPart) : Bool :=
  let lines := (pySplitlines part.text).filter (fun line => pyStrip line ≠ "")
  let occurrences := findall part.text
  !occurrences.isEmpty &&
    decide (threshold.num * lines.length < maxCount occurrences * threshold.den) &&
    lines.length > 4

/-- Modelled from the spec: the external YAML parser `safe_load` as an
opaque-value stand-in, used only where the parsed value is irrelevant (the
error refuted in claim C5 occurs before the parser is consulted). -/
def safe_load_stub : String → Yaml := fun _ => Yaml.null

/-! ## Concrete fixtures used by the claim theorems -/

/-- Fixture for claim C9: a single group that is not a start group. -/
def n9 : StoryPart := { text := "hello", filepath_name := "a.md", pathname := "A" }

/-- Graph of `n9` with no start groups. -/
def G9 : Graph := [("A", { variants := [n9] })]

/-- Fixture for claim C10: an end-group node with a dangling choice link. -/
def n10 : StoryPart :=
  { text := "the end", filepath_name := "e.md", pathname := "E",
    choices := [("go", "nowhere")] }

/-- Graph of `n10`: its only group is both start and end. -/
def G10 : Graph := [("E", { variants := [n10], is_start := true, is_end := true })]

/-- Fixture for claim C8: a line-initial colour marker (valid). -/
def n8v : StoryPart :=
  { text := "/colour #ff00ff", filepath_name := "v.md", pathname := "V" }

/-- Graph of `n8v`. -/
def G8v : Graph := [("V", { variants := [n8v] })]

/-- Fixture for claim C8: the same marker mid-sentence (invalid). -/
def n8i : StoryPart :=
  { text := "it turned /colour #ff00ff today", filepath_name := "i.md",
    pathname := "I" }

/-- Graph of `n8i`. -/
def G8i : Graph := [("I", { variants := [n8i] })]

/-- Fixture for claim C3's counterexample: five non-blank lines, two of them
repeating one colour marker — a fraction strictly between one quarter and
one half. -/
def n3q : StoryPart :=
  { text := "/colour #ff0000\n/colour #ff0000\nplain one\nplain two\nplain three",
    filepath_name := "q.md", pathname := "Q" }

/-- Graph of `n3q`. -/
def G3q : Graph := [("Q", { variants := [n3q] })]

/-- Fixture for claim C3: five non-blank lines, four repeating one pace
marker. -/
def n3five : StoryPart :=
  { text := "/fast\n/fast\n/fast\n/fast\nplain line",
    filepath_name := "five.md", pathname := "F" }

/-- Graph of `n3five`. -/
def G3five : Graph := [("F", { variants := [n3five] })]

/-- Fixture for claim C3: the same above-half marker ratio over only three
lines. -/
def n3three : StoryPart :=
  { text := "/fast\n/fast\nplain line", filepath_name := "three.md",
    pathname := "T" }

/-- Graph of `n3three`. -/
def G3three : Graph := [("T", { variants := [n3three] })]

/-- Fixture for claim C6: declared message-pov and message-title values that
match neither accepted pattern. -/
def n6 : StoryPart :=
  { text := "hi", filepath_name := "m.md", pathname := "M",
    messagepov := some "alice", messagetitle := some "hello" }

/-- Graph of `n6`. -/
def G6 : Graph := [("M", { variants := [n6] })]

/-- Fixture for claim C7: start node choosing the end group. -/
def n7a : StoryPart :=
  { text := "start", filepath_name := "a7.md", pathname := "A",
    choices := [("go", "B")] }

/-- Fixture for claim C7: the end node. -/
def n7b : StoryPart := { text := "fin", filepath_name := "b7.md", pathname := "B" }

/-- Two-group graph with exactly one playthrough of length 2. -/
def G7 : Graph :=
  [("A", { variants := [n7a], is_start := true }),
   ("B", { variants := [n7b], is_end := true })]

/-- Fixture for claim C7: a revisitable non-ending self-loop, whose
enumeration completes no playthrough. -/
def n7l : StoryPart :=
  { text := "loop", filepath_name := "l7.md", pathname := "A",
    choices := [("go", "A")] }

/-- Graph of `n7l`. -/
def G7loop : Graph := [("A", { variants := [n7l], is_start := true })]

/-- Fixture for claim C2: first node of group C. -/
def n2c1 : StoryPart := { text := "", filepath_name := "c1.md", pathname := "C" }

/-- Fixture for claim C2: the intermediate node of group B. -/
def n2b : StoryPart := { text := "", filepath_name := "b2.md", pathname := "B" }

/-- Fixture for claim C2: the returning node of group C. -/
def n2c2 : StoryPart := { text := "", filepath_name := "c2.md", pathname := "C" }

/-- Loop with group names C, B, C: ends at a node whose group name repeats
an earlier element. -/
def loopCBC : List StoryPart := [n2c1, n2b, n2c2]

/-- Rotation of `loopCBC` by one (names B, C, C): still ends at a node whose
group name repeats an earlier element. -/
def loopRot : List StoryPart := loopCBC.drop 1 ++ loopCBC.take 1

/-- Fixture for claim C4 (end-group counterexample): start node linking to
the end group B. -/
def n4a : StoryPart :=
  { text := "", filepath_name := "a4.md", pathname := "A", choices := [("go", "B")] }

/-- Fixture for claim C4: end-group node linking on to C. -/
def n4b : StoryPart :=
  { text := "", filepath_name := "b4.md", pathname := "B", choices := [("go", "C")] }

/-- Fixture for claim C4: the group behind the end group. -/
def n4c : StoryPart := { text := "", filepath_name := "c4.md", pathname := "C" }

/-- Graph where every group is link-reachable from the start but C lies
behind the end group B. -/
def G4a : Graph :=
  [("A", { variants := [n4a], is_start := true }),
   ("B", { variants := [n4b], is_end := true }),
   ("C", { variants := [n4c] })]

/-- Fixture for claim C4 (file-name collision counterexample): start node
with file name x.md. -/
def n4ax : StoryPart :=
  { text := "", filepath_name := "x.md", pathname := "A", choices := [("go", "B")] }

/-- Fixture for claim C4: reachable node whose file name collides with the
start node's. -/
def n4bx : StoryPart :=
  { text := "", filepath_name := "x.md", pathname := "B", choices := [("go", "C")] }

/-- Fixture for claim C4: node behind the collision. -/
def n4cy : StoryPart := { text := "", filepath_name := "y.md", pathname := "C" }

/-- Graph with no end groups where every group is link-reachable, but the
file names of the A and B nodes collide. -/
def G4b : Graph :=
  [("A", { variants := [n4ax], is_start := true }),
   ("B", { variants := [n4bx] }),
   ("C", { variants := [n4cy] })]

/-- Fixture for the amended claim C4's witness: start node linking to B. -/
def n4wa : StoryPart :=
  { text := "s", filepath_name := "wa.md", pathname := "A", choices := [("go", "B")] }

/-- Fixture for the amended claim C4's witness: the end node. -/
def n4wb : StoryPart := { text := "e", filepath_name := "wb.md", pathname := "B" }

/-- Well-formed graph where every node is reachable through non-end groups
and file names are distinct. -/
def G4w : Graph :=
  [("A", { variants := [n4wa], is_start := true }),
   ("B", { variants := [n4wb], is_end := true })]


/-! ## Helper lemmas -/

/-- Membership in a per-variant filter over the whole graph is membership in
`all_nodes` plus the filter condition. -/
theorem mem_variants_filter {parts : Graph} {f : StoryPart → Bool} {part : StoryPart} :
    part ∈ List.flatMap parts (fun kv => kv.2.variants.filter f) ↔
      part ∈ all_nodes parts ∧ f part = true := by
  simp only [all_nodes, List.mem_flatMap, List.mem_filter]
  tauto

/-- Start variants are nodes of the graph. -/
theorem starting_nodes_subset {parts : Graph} {n : StoryPart}
    (h : n ∈ starting_nodes parts) : n ∈ all_nodes parts := by
  simp only [starting_nodes, all_nodes, List.mem_flatMap] at h ⊢
  obtain ⟨kv, hkv, hn⟩ := h
  refine ⟨kv, hkv, ?_⟩
  by_cases hs : kv.2.is_start <;> simp [hs] at hn
  exact hn

/-- Entry found by lookup is an entry of the graph. -/
theorem findPart_mem {parts : Graph} {k : String} (h : hasKey parts k = true) :
    (k, findPart parts k) ∈ parts := by
  induction parts with
  | nil => simp [hasKey] at h
  | cons hd tl ih =>
    by_cases hk : hd.1 = k
    · subst hk
      simp [findPart, List.lookup]
    · have h' : hasKey tl k = true := by
        simp [hasKey] at h ⊢
        rcases h with h | h
        · exact absurd h.symm hk
        · exact h
      have := ih h'
      right
      have hfind : findPart (hd :: tl) k = findPart tl k := by
        simp [findPart, List.lookup, beq_eq_false_iff_ne.mpr (fun hkk => hk hkk.symm)]
      rwa [hfind]

/-- With distinct keys, lookup retrieves the unique entry for a key. -/
theorem nodup_findPart {parts : Graph} (hnd : keys_nodup parts) {k : String}
    {g : StoryParts} (h : (k, g) ∈ parts) : findPart parts k = g := by
  induction parts with
  | nil => simp at h
  | cons hd tl ih =>
    simp only [keys_nodup, List.map_cons, List.nodup_cons] at hnd
    rcases List.mem_cons.mp h with h | h
    · subst h
      simp [findPart, List.lookup]
    · have hk : hd.1 ≠ k := by
        intro he
        exact hnd.1 (he ▸ List.mem_map_of_mem Prod.fst h)
      have hfind : findPart (hd :: tl) k = findPart tl k := by
        simp [findPart, List.lookup, beq_eq_false_iff_ne.mpr (fun hkk => hk hkk.symm)]
      rw [hfind]
      exact ih hnd.2 h

/-- Variants of a graph entry are nodes of the graph. -/
theorem variants_subset_all_nodes {parts : Graph} {k : String} {g : StoryParts}
    (h : (k, g) ∈ parts) {v : StoryPart} (hv : v ∈ g.variants) :
    v ∈ all_nodes parts := by
  simp only [all_nodes, List.mem_flatMap]
  exact ⟨(k, g), h, hv⟩

/-! ## Claim C1 -/

/-- Claim C1: for every graph, the escapable and the inescapable loop lists
partition the loop list exactly — every loop found is in exactly one of the
two (union is everything, intersection is empty). -/
theorem C1_loop_partition (parts : Graph) (loop : List StoryPart) :
    (loop ∈ looping_nodes parts ↔
      (loop ∈ escapable_looping_nodes parts ∨
        loop ∈ innescapable_looping_nodes parts)) ∧
    ¬(loop ∈ escapable_looping_nodes parts ∧
        loop ∈ innescapable_looping_nodes parts) := by
  simp only [escapable_looping_nodes, innescapable_looping_nodes, List.mem_filter]
  cases h : can_escape parts loop <;> simp [h]

/-! ## Claim C9 -/

/-- Without start groups there are no start variants. -/
theorem starting_nodes_eq_nil {parts : Graph}
    (h : ∀ kv ∈ parts, kv.2.is_start = false) : starting_nodes parts = [] := by
  induction parts with
  | nil => rfl
  | cons hd tl ih =>
    have hhd := h hd (List.mem_cons_self hd tl)
    simp only [starting_nodes, List.flatMap_cons, hhd, Bool.false_eq_true,
      if_false, List.nil_append]
    exact ih (fun kv hkv => h kv (List.mem_cons_of_mem hd hkv))

/-- Claim C9: a graph with zero start groups has every node (all variants of
all groups) reported unreachable. -/
theorem C9_no_starts_all_unreachable (parts : Graph)
    (h : ∀ kv ∈ parts, kv.2.is_start = false) :
    unreachable_nodes parts = all_nodes parts := by
  have hs := starting_nodes_eq_nil h
  simp [unreachable_nodes, hs]

/-- Witness for claim C9 at a concrete one-group graph without starts. -/
theorem C9_no_starts_all_unreachable_witness :
    (∀ kv ∈ G9, kv.2.is_start = false) ∧ unreachable_nodes G9 = all_nodes G9 :=
  ⟨by decide, C9_no_starts_all_unreachable G9 (by decide)⟩

/-! ## Claim C10 -/

/-- Claim C10: `invalid_links` never reports a node of an end group, even
one with a dangling choice target — end groups are skipped wholesale. -/
theorem C10_end_groups_skipped (parts : Graph) (k : String) (g : StoryParts)
    (part : StoryPart) (hnd : keys_nodup parts) (hco : pathname_coherent parts)
    (hmem : (k, g) ∈ parts) (hend : g.is_end = true) (hpart : part ∈ g.variants) :
    part ∉ invalid_links parts := by
  intro hin
  simp only [invalid_links, List.mem_flatMap] at hin
  obtain ⟨kv, hkv, hpart'⟩ := hin
  by_cases he : kv.2.is_end
  · simp [he] at hpart'
  · rw [Bool.not_eq_true] at he
    simp only [he, Bool.false_eq_true, if_false, List.mem_filter] at hpart'
    have h1 : part.pathname = kv.1 := hco kv hkv part hpart'.1
    have h2 : part.pathname = k := hco (k, g) hmem part hpart
    have hk : (k, kv.2) ∈ parts := by
      have hkv2 : kv = (k, kv.2) := by
        rw [← h2, h1]
      rwa [← hkv2]
    have e1 := nodup_findPart hnd hk
    have e2 := nodup_findPart hnd hmem
    have hgg : kv.2 = g := by rw [← e1, e2]
    rw [hgg, hend] at he
    exact Bool.true_eq_false.mp he

/-- Witness for claim C10: the dangling end-group node of G10 is not
reported. -/
theorem C10_end_groups_skipped_witness :
    keys_nodup G10 ∧ pathname_coherent G10 ∧
      ("E", { variants := [n10], is_start := true, is_end := true }) ∈ G10 ∧
      n10 ∉ invalid_links G10 :=
  ⟨by decide, by decide, by decide,
    C10_end_groups_skipped G10 "E"
      { variants := [n10], is_start := true, is_end := true } n10
      (by decide) (by decide) (by decide) (by decide) (by decide)⟩

/-! ## Claim C8 -/

/-- Flag condition of `commands_in_text` as an existential over lines. -/
theorem commands_flag_iff {findall : String → List String} {am : Bool}
    {part : StoryPart} :
    commands_flag findall am part = true ↔
      ∃ line ∈ pySplitlines part.text, pyStrip line ≠ "" ∧
        ((am = false ∧ 1 < (findall (pyStrip line)).length) ∨
          (findall (pyStrip line) ≠ [] ∧ pyStartsWith (pyStrip line) "/" = false)) := by
  unfold commands_flag
  simp only [List.any_eq_true, Bool.and_eq_true, Bool.or_eq_true,
    Bool.not_eq_true', decide_eq_true_eq, Bool.eq_false_iff, ne_eq,
    List.isEmpty_iff, gt_iff_lt, not_not]

/-- Claim C8: the marker-validity scan flags a node exactly when some
non-blank prose line either carries more than one marker occurrence while
the concern does not allow multiple markers per line, or carries a marker
occurrence while the stripped line does not begin with "/"; only the effect
concern passes `allow_multiple`; the line-initial "/colour #ff00ff" is valid
for the colour concern while the same marker mid-sentence is flagged. -/
theorem C8_marker_validity :
    (∀ (parts : Graph) (findall : String → List String) (am : Bool)
        (part : StoryPart),
      part ∈ commands_in_text parts findall am ↔
        part ∈ all_nodes parts ∧
          ∃ line ∈ pySplitlines part.text, pyStrip line ≠ "" ∧
            ((am = false ∧ 1 < (findall (pyStrip line)).length) ∨
              (findall (pyStrip line) ≠ [] ∧
                pyStartsWith (pyStrip line) "/" = false))) ∧
    (∀ parts : Graph,
      effect_markers parts = commands_in_text parts EFFECT_findall true ∧
      colour_markers parts = commands_in_text parts COLOUR_findall false ∧
      pace_markers parts = commands_in_text parts PACE_findall false) ∧
    colour_markers G8v = [] ∧ colour_markers G8i = [n8i] := by
  refine ⟨?_, fun parts => ⟨rfl, rfl, rfl⟩, by decide, by decide⟩
  intro parts findall am part
  rw [commands_in_text, mem_variants_filter, commands_flag_iff]

/-! ## Claim C3 -/

/-- Strict comparison of a rational against a natural fraction, in the
cross-multiplied integer form used by the executable definitions. -/
theorem rat_lt_div_iff (q : ℚ) (m n : Nat) (hn : 0 < n) :
    (q.num * n < m * q.den) ↔ q < (m : ℚ) / (n : ℚ) := by
  have hn' : (0:ℚ) < n := by exact_mod_cast hn
  have hd' : (0:ℚ) < (q.den : ℚ) := by exact_mod_cast q.den_pos
  have key : q * (q.den : ℚ) = (q.num : ℚ) := by
    nth_rewrite 1 [← Rat.num_div_den q]
    exact div_mul_cancel₀ _ (ne_of_gt hd')
  rw [lt_div_iff₀ hn']
  constructor
  · intro h
    have h2 : ((q.num : ℚ)) * n < m * q.den := by exact_mod_cast h
    nlinarith
  · intro h
    have h2 : ((q.num : ℚ)) * n < m * q.den := by nlinarith
    exact_mod_cast h2

/-- Flag condition of `excessive_commands` spelled out. -/
theorem excessive_flag_iff {findall : String → List String} {threshold : ℚ}
    {part : StoryPart} :
    excessive_flag findall threshold part = true ↔
      ((pySplitlines part.text).filter (fun line => pyStrip line ≠ "") ≠ [] ∧
        findall part.text ≠ [] ∧
        threshold < (maxCount (findall part.text) : ℚ) /
          (((pySplitlines part.text).filter (fun line => pyStrip line ≠ "")).length : ℚ) ∧
        4 < ((pySplitlines part.text).filter (fun line => pyStrip line ≠ "")).length) := by
  unfold excessive_flag
  set lines := (pySplitlines part.text).filter (fun line => pyStrip line ≠ "") with hl
  by_cases h1 : lines = []
  · simp [h1]
  · by_cases h2 : findall part.text = []
    · simp [h1, h2]
    · have hlen : 0 < lines.length := List.length_pos.mpr h1
      rw [if_neg h1, if_neg h2]
      simp only [Bool.and_eq_true, decide_eq_true_eq]
      rw [rat_lt_div_iff _ _ _ hlen]
      constructor
      · rintro ⟨ha, hb⟩
        exact ⟨h1, h2, ha, hb⟩
      · rintro ⟨-, -, ha, hb⟩
        exact ⟨ha, hb⟩

/-- Claim C3 counterexample: the claim prescribes a quarter threshold for
the colour concern, so it flags a five-line node whose dominant colour
marker covers two fifths of the lines; the code thresholds every concern at
one half and reports nothing for that node. -/
theorem C3_counterexample :
    spec_excessive_flag COLOUR_findall EXCESSIVE_THRESHOLD n3q = true ∧
    n3q ∈ all_nodes G3q ∧ excessive_colours G3q = [] :=
  ⟨by decide, by decide, by decide⟩

/-- Amended claim C3: the excessive-usage check flags a node exactly when
its most frequent marker value exceeds the threshold fraction of its
non-blank lines and it has more than four non-blank lines, with the
threshold equal to one half for every concern (the colour concern included);
in particular the five-line node with a four-fold pace marker is flagged and
the three-line node with an above-half ratio is not. -/
theorem C3_amended_excessive :
    (∀ (parts : Graph) (findall : String → List String) (threshold : ℚ)
        (part : StoryPart),
      part ∈ excessive_commands parts findall threshold ↔
        part ∈ all_nodes parts ∧
          ((pySplitlines part.text).filter (fun line => pyStrip line ≠ "") ≠ [] ∧
            findall part.text ≠ [] ∧
            threshold < (maxCount (findall part.text) : ℚ) /
              (((pySplitlines part.text).filter (fun line => pyStrip line ≠ "")).length : ℚ) ∧
            4 < ((pySplitlines part.text).filter (fun line => pyStrip line ≠ "")).length)) ∧
    (∀ parts : Graph,
      excessive_colours parts = excessive_commands parts COLOUR_findall (1 / 2) ∧
      excessive_pacing parts = excessive_commands parts PACE_findall (1 / 2) ∧
      excessive_effects parts = excessive_commands parts EFFECT_findall (1 / 2)) ∧
    n3five ∈ excessive_pacing G3five ∧ n3three ∉ excessive_pacing G3three := by
  have hhalf : (mkRat 1 2 : ℚ) = 1 / 2 := by
    rw [Rat.mkRat_eq_div]; norm_num
  refine ⟨?_, fun parts => ⟨?_, ?_, ?_⟩, by decide, by decide⟩
  · intro parts findall threshold part
    rw [excessive_commands, mem_variants_filter, excessive_flag_iff]
  · rw [excessive_colours, hhalf]
  · rw [excessive_pacing, hhalf]
  · rw [excessive_effects, hhalf]

/-! ## Claim C6 -/

/-- Claim C6 refuted: both message metadata checks are dead code.  The
source asks `getattr` for the attributes "message-pov" and "message-title";
the dataclass fields are `messagepov` and `messagetitle` (hyphens cannot
appear in Python identifiers), so `getattr` always yields the `None` default
and no node is ever reported — as shown both for every graph and for the
concrete node with declared values matching neither accepted pattern. -/
theorem C6_message_metadata_dead :
    (∀ parts : Graph,
      message_metadata parts = [] ∧ message_title_metadata parts = []) ∧
    n6.messagepov = some "alice" ∧ META_MESSAGE_PATTERN_match "alice" = false ∧
    n6.messagetitle = some "hello" ∧
    META_MESSAGE_TITLE_PATTERN_match "hello" = false ∧
    message_metadata G6 = [] ∧ message_title_metadata G6 = [] := by
  refine ⟨fun parts => ⟨?_, ?_⟩, rfl, by decide, rfl, by decide, by decide, by decide⟩
  · show List.flatMap parts (fun kv => kv.2.variants.filter (fun _ => false)) = []
    simp
  · show List.flatMap parts (fun kv => kv.2.variants.filter (fun _ => false)) = []
    simp

/-! ## Claim C5 -/

/-- Claim C5 counterexample: ingestion is not total.  A document whose
stripped content starts with "---" but contains no second "---" makes the
three-way unpacking in `parse_markdown` raise ValueError; a front-matter
block parsed to a non-mapping (e.g. None for an empty block) makes
`metadata.get` raise AttributeError in the construction; a "choices" field
holding a non-mapping makes `.items()` raise AttributeError. -/
theorem C5_counterexample :
    parse_markdown safe_load_stub "---" =
      .error "ValueError: not enough values to unpack" ∧
    make_part "p" "f.md" Yaml.null "body" =
      .error "AttributeError: object has no attribute get" ∧
    make_part "p" "f.md" (Yaml.dict [("choices", Yaml.str "hello")]) "body" =
      .error "AttributeError: object has no attribute items" :=
  ⟨rfl, rfl, rfl⟩

/-- Amended claim C5: ingestion raises no error on structurally well-formed
documents — content without a leading "---" parses to empty metadata and
its stripped text; content splitting on "---" into at least three pieces
parses successfully whatever the YAML parser returns; the per-document
construction succeeds whenever the front matter is a mapping whose
"choices" entry, if present, is itself a mapping; and absent fields default
to None/empty/True.  (An unpaired leading "---" or a non-mapping front
matter raises, per the counterexample.) -/
theorem C5_amended_ingestion :
    (∀ (safe_load : String → Yaml) (content : String),
      pyStartsWith (pyStrip content) "---" = false →
        parse_markdown safe_load content = .ok (.dict [], pyStrip content)) ∧
    (∀ (safe_load : String → Yaml) (content : String),
      pyStartsWith (pyStrip content) "---" = true →
      3 ≤ (pySplitOn (pyStrip content) "---").length →
        ∃ meta body, parse_markdown safe_load content =
          .ok (safe_load meta, pyReplaceBackslash (pyStrip body))) ∧
    (∀ (pathname fname body : String) (entries : List (String × Yaml)),
      (entries.lookup "choices" = none ∨
        ∃ cs, entries.lookup "choices" = some (Yaml.dict cs)) →
        ∃ part, make_part pathname fname (Yaml.dict entries) body = .ok part) ∧
    (∀ pathname fname body,
      make_part pathname fname (Yaml.dict []) body =
        .ok { text := body, filepath_name := fname, pathname := pathname }) ∧
    (∀ this_part, make_group (Yaml.dict []) this_part =
      .ok { variants := [this_part] }) := by
  refine ⟨?_, ?_, ?_, fun pathname fname body => rfl, fun this_part => rfl⟩
  · intro safe_load content h
    simp [parse_markdown, h]
  · intro safe_load content h hlen
    have h3 : ∃ a b c, pySplit2 "---" (pyStrip content) = [a, b, c] := by
      unfold pySplit2
      rcases hs : pySplitOn (pyStrip content) "---" with - | ⟨a, - | ⟨b, - | ⟨c, rest⟩⟩⟩
      · rw [hs] at hlen; simp at hlen
      · rw [hs] at hlen; simp at hlen
      · rw [hs] at hlen; simp at hlen
      · rcases rest with - | ⟨d, rest⟩
        · exact ⟨a, b, c, by simp⟩
        · refine ⟨a, b, joinSep "---" (c :: d :: rest), ?_⟩
          simp [List.length]
    obtain ⟨a, b, c, h3⟩ := h3
    refine ⟨b, c, ?_⟩
    simp only [parse_markdown, h, Bool.not_true, Bool.false_eq_true, if_false]
    rw [h3]
  · intro pathname fname body entries h
    rcases h with h | ⟨cs, h⟩
    · exact ⟨_, by simp only [make_part, Yaml.get, h, Option.getD_none]; rfl⟩
    · exact ⟨_, by simp only [make_part, Yaml.get, h, Option.getD_some]; rfl⟩

/-- Witness for the amended claim C5 at concrete documents. -/
theorem C5_amended_ingestion_witness :
    (pyStartsWith (pyStrip "hello there") "---" = false ∧
      parse_markdown safe_load_stub "hello there" =
        .ok (.dict [], pyStrip "hello there")) ∧
    (pyStartsWith (pyStrip "---\nstart: yes\n---\nbody") "---" = true ∧
      3 ≤ (pySplitOn (pyStrip "---\nstart: yes\n---\nbody") "---").length ∧
      ∃ meta body, parse_markdown safe_load_stub "---\nstart: yes\n---\nbody" =
        .ok (safe_load_stub meta, pyReplaceBackslash (pyStrip body))) ∧
    ∃ part, make_part "p" "f.md" (Yaml.dict [("choices", Yaml.dict [])]) "body" =
      .ok part :=
  ⟨⟨by decide, C5_amended_ingestion.1 safe_load_stub "hello there" (by decide)⟩,
   ⟨by decide, by decide,
    C5_amended_ingestion.2.1 safe_load_stub "---\nstart: yes\n---\nbody"
      (by decide) (by decide)⟩,
   C5_amended_ingestion.2.2.1 "p" "f.md" "body" [("choices", Yaml.dict [])]
     (Or.inr ⟨[], rfl⟩)⟩

/-! ## Claim C2 -/

/-- Claim C2 refuted (code bug): `canonical_looping` computes the
lexicographically smallest rotation (`minimum`) but then compares that
tuple against a list — never equal in Python — so the rotation is never
applied and the truncated sequence is returned unrotated.  On the loop with
group names C,B,C the canonical names stay C,B,C instead of the prescribed
lexicographic minimum B,C,C; rotating the same loop by one yields canonical
names C,C, so rotation invariance fails and two representations of one
cycle are not identified. -/
theorem C2_canonicalisation_bug :
    loopRot = loopCBC.drop 1 ++ loopCBC.take 1 ∧
    (canonical_looping loopCBC).2 = ["C", "B", "C"] ∧
    spec_canonical_names (loopCBC.map (fun p => p.pathname)) = ["B", "C", "C"] ∧
    (canonical_looping loopCBC).2 ≠
      spec_canonical_names (loopCBC.map (fun p => p.pathname)) ∧
    (canonical_looping loopRot).2 = ["C", "C"] ∧
    (canonical_looping loopCBC).2 ≠ (canonical_looping loopRot).2 :=
  ⟨rfl, by decide, by decide, by decide, by decide, by decide⟩

/-! ## Claim C7 -/

/-- Filter condition of `abnormal_paths` restated as the rational
mean-distance inequality. -/
theorem abnormal_filter_iff (L total n : Nat) (hn : 0 < n) :
    (n < ((L * n : Int) - total).natAbs) ↔
      1 < |(L : ℚ) - (total : ℚ) / (n : ℚ)| := by
  have hn' : (0:ℚ) < n := by exact_mod_cast hn
  have key : (L : ℚ) - (total : ℚ) / (n : ℚ) =
      (((L * n : Int) - (total : Int) : Int) : ℚ) / (n : ℚ) := by
    field_simp
  rw [key, abs_div, abs_of_pos hn', lt_div_iff₀ hn', one_mul]
  rw [← Int.cast_abs, Int.abs_eq_natAbs]
  exact_mod_cast Iff.rfl

/-- Sum of a constant-valued map. -/
theorem sum_map_const_length {α : Type} (l : List α) (f : α → Nat) (L : Nat)
    (h : ∀ x ∈ l, f x = L) : (l.map f).sum = l.length * L := by
  induction l with
  | nil => simp
  | cons hd tl ih =>
    simp only [List.map_cons, List.sum_cons, List.length_cons]
    rw [h hd (List.mem_cons_self hd tl),
      ih (fun x hx => h x (List.mem_cons_of_mem hd hx))]
    ring

/-- Claim C7: `abnormal_paths` returns exactly the enumerated playthroughs
whose length differs from the arithmetic mean playthrough length by more
than one node; consequently it is empty when all playthroughs have equal
length, and when no playthrough completes at all. -/
theorem C7_abnormal_paths :
    (∀ (parts : Graph) (path : List StoryPart),
      path ∈ abnormal_paths parts ↔
        path ∈ enumerate_paths parts ∧
          1 < |(path.length : ℚ) -
            ((enumerate_paths parts).map (fun p => (p.length : ℚ))).sum /
              ((enumerate_paths parts).length : ℚ)|) ∧
    (∀ parts : Graph,
      (∀ p ∈ enumerate_paths parts, ∀ q ∈ enumerate_paths parts,
        p.length = q.length) → abnormal_paths parts = []) ∧
    (∀ parts : Graph, enumerate_paths parts = [] → abnormal_paths parts = []) := by
  have hsum : ∀ parts : Graph,
      ((enumerate_paths parts).map (fun p => (p.length : ℚ))).sum =
        (Nat.cast ((((enumerate_paths parts).map (fun p => p.length) : List Nat)).sum) : ℚ) := by
    intro parts
    rw [Nat.cast_list_sum, List.map_map]
    rfl
  refine ⟨?_, ?_, ?_⟩
  · intro parts path
    unfold abnormal_paths
    by_cases h : enumerate_paths parts = []
    · simp [h]
    · have hn : 0 < (enumerate_paths parts).length := List.length_pos.mpr h
      rw [if_neg h]
      simp only [List.mem_filter, decide_eq_true_eq, gt_iff_lt]
      rw [abnormal_filter_iff _ _ _ hn, ← hsum parts]
  · intro parts hall
    unfold abnormal_paths
    by_cases h : enumerate_paths parts = []
    · simp [h]
    · rw [if_neg h]
      obtain ⟨p0, hp0⟩ := List.exists_mem_of_ne_nil _ h
      have htot : ((enumerate_paths parts).map (fun p => p.length)).sum =
          (enumerate_paths parts).length * p0.length :=
        sum_map_const_length _ _ _ (fun x hx => hall x hx p0 hp0)
      rw [List.filter_eq_nil_iff]
      intro path hpath
      have hL : path.length = p0.length := hall path hpath p0 hp0
      simp only [htot, hL, decide_eq_true_eq, gt_iff_lt, not_lt]
      have hz : ((p0.length * (enumerate_paths parts).length : Int) -
          (((enumerate_paths parts).length * p0.length : Nat) : Int)) = 0 := by
        push_cast
        ring
      rw [hz]
      simp
  · intro parts h
    unfold abnormal_paths
    simp [h]

/-- Witness for claim C7: the two-group scenario has a single playthrough
(hence all lengths equal) and no abnormal paths; the self-loop scenario
completes no playthrough and also reports none. -/
theorem C7_abnormal_paths_witness :
    (∀ p ∈ enumerate_paths G7, ∀ q ∈ enumerate_paths G7, p.length = q.length) ∧
    abnormal_paths G7 = [] ∧
    enumerate_paths G7loop = [] ∧ abnormal_paths G7loop = [] :=
  ⟨by decide, C7_abnormal_paths.2.1 G7 (by decide), by decide,
    C7_abnormal_paths.2.2 G7loop (by decide)⟩

/-! ## Claim C4 -/

/-- Claim C4 counterexample: two graphs in which every group is transitively
reachable from a start group via valid choice links, yet `unreachable_nodes`
is non-empty — in G4a because the traversal does not descend past the end
group B (so C behind it is reported), and in G4b (which has no end groups at
all) because the visited set keys nodes by file name and the names of the A
and B nodes collide, cutting the traversal short. -/
theorem C4_counterexample :
    all_groups_link_reachable G4a = true ∧ unreachable_nodes G4a = [n4c] ∧
    all_groups_link_reachable G4b = true ∧ unreachable_nodes G4b = [n4cy] :=
  ⟨by decide, by decide, by decide, by decide⟩

/-- Elements are bounded by the maximum fold. -/
theorem mem_le_foldr_max {l : List Nat} {a : Nat} (h : a ∈ l) :
    a ≤ l.foldr max 0 := by
  induction l with
  | nil => simp at h
  | cons hd tl ih =>
    rcases List.mem_cons.mp h with h | h
    · subst h; exact le_max_left _ _
    · exact le_trans (ih h) (le_max_right _ _)

/-- Choice counts are bounded by `maxChoices`. -/
theorem choices_le_maxChoices {parts : Graph} {n : StoryPart}
    (h : n ∈ all_nodes parts) : n.choices.length ≤ maxChoices parts :=
  mem_le_foldr_max (List.mem_map_of_mem (fun n => n.choices.length) h)

/-- A single group's variant list is no longer than the node list. -/
theorem variants_length_le {parts : Graph} {k : String} {g : StoryParts}
    (h : (k, g) ∈ parts) : g.variants.length ≤ (all_nodes parts).length := by
  induction parts with
  | nil => simp at h
  | cons hd tl ih =>
    have : all_nodes (hd :: tl) = hd.2.variants ++ all_nodes tl := rfl
    rw [this, List.length_append]
    rcases List.mem_cons.mp h with h | h
    · subst h
      show g.variants.length ≤ g.variants.length + (all_nodes tl).length
      omega
    · have := ih h
      omega

/-- Length bound for a bind whose pieces are uniformly bounded. -/
theorem flatMap_length_le {α β : Type} (l : List α) (f : α → List β) (B : Nat)
    (h : ∀ x ∈ l, (f x).length ≤ B) :
    (List.flatMap l f).length ≤ l.length * B := by
  induction l with
  | nil => simp
  | cons hd tl ih =>
    rw [List.flatMap_cons, List.length_append, List.length_cons, Nat.succ_mul]
    have h1 := h hd (List.mem_cons_self hd tl)
    have h2 := ih (fun x hx => h x (List.mem_cons_of_mem hd hx))
    omega

/-- Successors pushed by the work-list step are nodes of the graph. -/
theorem nexts_subset {parts : Graph} {node : StoryPart} {v : StoryPart}
    (hv : v ∈ List.flatMap (node.choices.map Prod.snd) (fun choice =>
      if hasKey parts choice then (findPart parts choice).variants else [])) :
    v ∈ all_nodes parts := by
  simp only [List.mem_flatMap] at hv
  obtain ⟨c, hc, hvc⟩ := hv
  by_cases hk : hasKey parts c
  · rw [if_pos hk] at hvc
    exact variants_subset_all_nodes (findPart_mem hk) hvc
  · simp [hk] at hvc

/-- Length bound for the successors pushed by the work-list step. -/
theorem nexts_length_le {parts : Graph} {node : StoryPart}
    (hnode : node ∈ all_nodes parts) :
    (List.flatMap (node.choices.map Prod.snd) (fun choice =>
      if hasKey parts choice then (findPart parts choice).variants else [])).length ≤
      maxChoices parts * (all_nodes parts).length := by
  have h1 : (List.flatMap (node.choices.map Prod.snd) (fun choice =>
      if hasKey parts choice then (findPart parts choice).variants else [])).length ≤
      (node.choices.map Prod.snd).length * (all_nodes parts).length := by
    apply flatMap_length_le
    intro c hc
    by_cases hk : hasKey parts c
    · rw [if_pos hk]
      exact variants_length_le (findPart_mem hk)
    · simp [hk]
  have h2 : (node.choices.map Prod.snd).length ≤ maxChoices parts := by
    rw [List.length_map]
    exact choices_le_maxChoices hnode
  calc (List.flatMap (node.choices.map Prod.snd) (fun choice =>
      if hasKey parts choice then (findPart parts choice).variants else [])).length
      ≤ (node.choices.map Prod.snd).length * (all_nodes parts).length := h1
    _ ≤ maxChoices parts * (all_nodes parts).length :=
        Nat.mul_le_mul_right _ h2

/-- Completeness of the reachability work-list: from any state whose measure
the fuel covers, whose stack holds graph nodes and whose invariant holds,
the final visited set contains the initial one, contains every stacked
node's file name, and is closed under stepping through valid choices of
visited non-end nodes.  (File-name injectivity identifies a visited name
with its unique node.) -/
theorem dfs_visit_complete (parts : Graph) (hinj : filenames_injective parts) :
    ∀ (fuel : Nat) (stack : List StoryPart) (visited : List String),
      (∀ n ∈ stack, n ∈ all_nodes parts) →
      dfs_measure parts stack visited ≤ fuel →
      dfs_inv parts stack visited →
      (∀ v ∈ visited, v ∈ dfs_visit parts fuel stack visited) ∧
      (∀ n ∈ stack, n.filepath_name ∈ dfs_visit parts fuel stack visited) ∧
      visited_closed parts (dfs_visit parts fuel stack visited) := by
  intro fuel
  induction fuel with
  | zero =>
    intro stack visited hstack hm hinv
    cases stack with
    | nil =>
      refine ⟨fun v hv => hv, by simp, ?_⟩
      intro w hw hwv hwend c hc hkey u hu
      rcases hinv w hw hwv hwend c hc hkey u hu with h | h
      · exact h
      · simp at h
    | cons node stack =>
      exfalso
      unfold dfs_measure at hm
      simp only [List.length_cons] at hm
      omega
  | succ fuel ih =>
    intro stack visited hstack hm hinv
    cases stack with
    | nil =>
      refine ⟨fun v hv => hv, by simp, ?_⟩
      intro w hw hwv hwend c hc hkey u hu
      rcases hinv w hw hwv hwend c hc hkey u hu with h | h
      · exact h
      · simp at h
    | cons node stack =>
      have hnode : node ∈ all_nodes parts := hstack node (List.mem_cons_self _ _)
      by_cases h1 : node.filepath_name ∈ visited
      · -- already-visited file name: pop and continue
        have hstep : dfs_visit parts (fuel + 1) (node :: stack) visited =
            dfs_visit parts fuel stack visited := by
          simp only [dfs_visit]
          rw [if_pos h1]
        have hcard : (((all_nodes parts ++ stack).map
              (fun n => n.filepath_name)).toFinset \ visited.toFinset).card ≤
            (((all_nodes parts ++ node :: stack).map
              (fun n => n.filepath_name)).toFinset \ visited.toFinset).card := by
          apply Finset.card_le_card
          apply Finset.sdiff_subset_sdiff _ (Finset.Subset.refl _)
          intro x hx
          simp only [List.mem_toFinset, List.mem_map, List.mem_append,
            List.mem_cons] at hx ⊢
          obtain ⟨n, hn, rfl⟩ := hx
          rcases hn with hn | hn
          · exact ⟨n, Or.inl hn, rfl⟩
          · exact ⟨n, Or.inr (Or.inr hn), rfl⟩
        have hmle : dfs_measure parts stack visited ≤ fuel := by
          unfold dfs_measure at hm ⊢
          simp only [List.length_cons] at hm
          have := Nat.mul_le_mul_right
            (maxChoices parts * (all_nodes parts).length + 1) hcard
          omega
        have hinv' : dfs_inv parts stack visited := by
          intro w hw hwv hwend c hc hkey u hu
          rcases hinv w hw hwv hwend c hc hkey u hu with h | h
          · exact Or.inl h
          · rcases List.mem_cons.mp h with rfl | h
            · exact Or.inl h1
            · exact Or.inr h
        obtain ⟨ha, hb, hc⟩ := ih stack visited
          (fun n hn => hstack n (List.mem_cons_of_mem _ hn)) hmle hinv'
        rw [hstep]
        refine ⟨ha, ?_, hc⟩
        intro n hn
        rcases List.mem_cons.mp hn with rfl | hn
        · exact ha _ h1
        · exact hb n hn
      · by_cases h2 : (findPart parts node.pathname).is_end = true
        · -- fresh end-group node: mark visited, do not expand
          have hstep : dfs_visit parts (fuel + 1) (node :: stack) visited =
              dfs_visit parts fuel stack (node.filepath_name :: visited) := by
            simp only [dfs_visit]
            rw [if_neg h1, if_pos h2]
          have hcard : (((all_nodes parts ++ stack).map
                (fun n => n.filepath_name)).toFinset \
                (node.filepath_name :: visited).toFinset).card ≤
              (((all_nodes parts ++ node :: stack).map
                (fun n => n.filepath_name)).toFinset \ visited.toFinset).card := by
            apply Finset.card_le_card
            apply Finset.sdiff_subset_sdiff
            · intro x hx
              simp only [List.mem_toFinset, List.mem_map, List.mem_append,
                List.mem_cons] at hx ⊢
              obtain ⟨n, hn, rfl⟩ := hx
              rcases hn with hn | hn
              · exact ⟨n, Or.inl hn, rfl⟩
              · exact ⟨n, Or.inr (Or.inr hn), rfl⟩
            · intro x hx
              simp only [List.mem_toFinset, List.mem_cons] at hx ⊢
              exact Or.inr hx
          have hmle : dfs_measure parts stack (node.filepath_name :: visited) ≤ fuel := by
            unfold dfs_measure at hm ⊢
            simp only [List.length_cons] at hm
            have := Nat.mul_le_mul_right
              (maxChoices parts * (all_nodes parts).length + 1) hcard
            omega
          have hinv' : dfs_inv parts stack (node.filepath_name :: visited) := by
            intro w hw hwv hwend c hc hkey u hu
            rcases List.mem_cons.mp hwv with hwnm | hwv
            · have hwnode : w = node := hinj w hw node hnode hwnm
              rw [hwnode] at hwend
              rw [h2] at hwend
              simp at hwend
            · rcases hinv w hw hwv hwend c hc hkey u hu with h | h
              · exact Or.inl (List.mem_cons_of_mem _ h)
              · rcases List.mem_cons.mp h with rfl | h
                · exact Or.inl (List.mem_cons_self _ _)
                · exact Or.inr h
          obtain ⟨ha, hb, hc⟩ := ih stack (node.filepath_name :: visited)
            (fun n hn => hstack n (List.mem_cons_of_mem _ hn)) hmle hinv'
          rw [hstep]
          refine ⟨fun v hv => ha _ (List.mem_cons_of_mem _ hv), ?_, hc⟩
          intro n hn
          rcases List.mem_cons.mp hn with rfl | hn
          · exact ha _ (List.mem_cons_self _ _)
          · exact hb n hn
        · -- fresh non-end node: mark visited and push the successors
          have hstep : dfs_visit parts (fuel + 1) (node :: stack) visited =
              dfs_visit parts fuel
                ((List.flatMap (node.choices.map Prod.snd) (fun choice =>
                  if hasKey parts choice then (findPart parts choice).variants
                  else [])).reverse ++ stack)
                (node.filepath_name :: visited) := by
            simp only [dfs_visit]
            rw [if_neg h1, if_neg h2]
          have hstack' : ∀ n ∈ (List.flatMap (node.choices.map Prod.snd)
              (fun choice => if hasKey parts choice then
                (findPart parts choice).variants else [])).reverse ++ stack,
              n ∈ all_nodes parts := by
            intro n hn
            rcases List.mem_append.mp hn with hn | hn
            · exact nexts_subset (List.mem_reverse.mp hn)
            · exact hstack n (List.mem_cons_of_mem _ hn)
          have hmem : node.filepath_name ∈
              (((all_nodes parts ++ node :: stack).map
                (fun n => n.filepath_name)).toFinset \ visited.toFinset) := by
            simp only [Finset.mem_sdiff, List.mem_toFinset, List.mem_map,
              List.mem_append, List.mem_cons]
            exact ⟨⟨node, Or.inr (Or.inl rfl), rfl⟩, h1⟩
          have hsub : (((all_nodes parts ++
                ((List.flatMap (node.choices.map Prod.snd) (fun choice =>
                  if hasKey parts choice then (findPart parts choice).variants
                  else [])).reverse ++ stack)).map
                (fun n => n.filepath_name)).toFinset \
                (node.filepath_name :: visited).toFinset) ⊆
              ((((all_nodes parts ++ node :: stack).map
                (fun n => n.filepath_name)).toFinset \
                visited.toFinset).erase node.filepath_name) := by
            intro x hx
            simp only [Finset.mem_sdiff, List.mem_toFinset, List.mem_map,
              List.mem_append, List.mem_cons, not_or, Finset.mem_erase] at hx ⊢
            obtain ⟨⟨n, hn, rfl⟩, hnm, hnv⟩ := hx
            refine ⟨hnm, ⟨n, ?_, rfl⟩, hnv⟩
            rcases hn with hn | hn | hn
            · exact Or.inl hn
            · exact Or.inl (nexts_subset (List.mem_reverse.mp hn))
            · exact Or.inr (Or.inr hn)
          have hcard : (((all_nodes parts ++
                ((List.flatMap (node.choices.map Prod.snd) (fun choice =>
                  if hasKey parts choice then (findPart parts choice).variants
                  else [])).reverse ++ stack)).map
                (fun n => n.filepath_name)).toFinset \
                (node.filepath_name :: visited).toFinset).card + 1 ≤
              ((((all_nodes parts ++ node :: stack).map
                (fun n => n.filepath_name)).toFinset \ visited.toFinset)).card := by
            have hle := Finset.card_le_card hsub
            have heq := Finset.card_erase_add_one hmem
            omega
          have hlen : ((List.flatMap (node.choices.map Prod.snd) (fun choice =>
                if hasKey parts choice then (findPart parts choice).variants
                else [])).reverse ++ stack).length + 1 ≤
              stack.length + (maxChoices parts * (all_nodes parts).length + 1) := by
            rw [List.length_append, List.length_reverse]
            have := nexts_length_le hnode
            omega
          have hmle : dfs_measure parts
              ((List.flatMap (node.choices.map Prod.snd) (fun choice =>
                if hasKey parts choice then (findPart parts choice).variants
                else [])).reverse ++ stack)
              (node.filepath_name :: visited) ≤ fuel := by
            unfold dfs_measure at hm ⊢
            simp only [List.length_cons] at hm
            have hmul := Nat.mul_le_mul_right
              (maxChoices parts * (all_nodes parts).length + 1) hcard
            rw [Nat.succ_mul] at hmul
            omega
          have hinv' : dfs_inv parts
              ((List.flatMap (node.choices.map Prod.snd) (fun choice =>
                if hasKey parts choice then (findPart parts choice).variants
                else [])).reverse ++ stack)
              (node.filepath_name :: visited) := by
            intro w hw hwv hwend c hc hkey u hu
            rcases List.mem_cons.mp hwv with hwnm | hwv
            · have hwnode : w = node := hinj w hw node hnode hwnm
              subst hwnode
              refine Or.inr (List.mem_append.mpr (Or.inl ?_))
              rw [List.mem_reverse]
              simp only [List.mem_flatMap]
              refine ⟨c, hc, ?_⟩
              rw [if_pos hkey]
              exact hu
            · rcases hinv w hw hwv hwend c hc hkey u hu with h | h
              · exact Or.inl (List.mem_cons_of_mem _ h)
              · rcases List.mem_cons.mp h with rfl | h
                · exact Or.inl (List.mem_cons_self _ _)
                · exact Or.inr (List.mem_append.mpr (Or.inr h))
          obtain ⟨ha, hb, hc⟩ := ih _ (node.filepath_name :: visited)
            hstack' hmle hinv'
          rw [hstep]
          refine ⟨fun v hv => ha _ (List.mem_cons_of_mem _ hv), ?_, hc⟩
          intro n hn
          rcases List.mem_cons.mp hn with rfl | hn
          · exact ha _ (List.mem_cons_self _ _)
          · exact hb n (List.mem_append.mpr (Or.inr hn))

/-- A reachable group name is a key of the graph. -/
theorem reach_hasKey {parts : Graph} {k : String}
    (h : ReachableGroup parts k) : hasKey parts k = true := by
  induction h with
  | start k hkey hstart => exact hkey
  | step k c v hkreach hkend hv hc hckey ih => exact hckey

/-- If some reachable group has a variant, there is a start variant. -/
theorem reach_start_nonempty {parts : Graph} {k : String}
    (h : ReachableGroup parts k) (hne : (findPart parts k).variants ≠ []) :
    starting_nodes parts ≠ [] := by
  induction h with
  | start k hkey hstart =>
    intro hcon
    obtain ⟨v, hv⟩ := List.exists_mem_of_ne_nil _ hne
    have hmem : v ∈ starting_nodes parts := by
      simp only [starting_nodes, List.mem_flatMap]
      exact ⟨(k, findPart parts k), findPart_mem hkey,
        by rw [if_pos hstart]; exact hv⟩
    rw [hcon] at hmem
    simp at hmem
  | step k c v hkreach hkend hv hc hckey ih =>
    exact ih (List.ne_nil_of_mem hv)

/-- Every variant of a group reachable through non-end groups gets its file
name into the final visited set of the reachability work-list. -/
theorem reach_variants_visited (parts : Graph) (_hnd : keys_nodup parts)
    (hco : pathname_coherent parts) (hinj : filenames_injective parts)
    {k : String} (hk : ReachableGroup parts k) :
    ∀ v ∈ (findPart parts k).variants,
      v.filepath_name ∈
        dfs_visit parts (dfs_fuel parts) (starting_nodes parts).reverse [] := by
  obtain ⟨-, hb, hc⟩ := dfs_visit_complete parts hinj (dfs_fuel parts)
    (starting_nodes parts).reverse []
    (fun n hn => starting_nodes_subset (List.mem_reverse.mp hn))
    (by rw [dfs_fuel])
    (by intro w hw hwv hwend c hcc hkey u hu; simp at hwv)
  induction hk with
  | start k hkey hstart =>
    intro v hv
    apply hb
    rw [List.mem_reverse]
    simp only [starting_nodes, List.mem_flatMap]
    exact ⟨(k, findPart parts k), findPart_mem hkey,
      by rw [if_pos hstart]; exact hv⟩
  | step k c v hkreach hkend hv hcchoice hckey ihk =>
    intro u hu
    have hvall : v ∈ all_nodes parts :=
      variants_subset_all_nodes (findPart_mem (reach_hasKey hkreach)) hv
    have hvw : v.filepath_name ∈
        dfs_visit parts (dfs_fuel parts) (starting_nodes parts).reverse [] :=
      ihk v hv
    have hvpath : v.pathname = k :=
      hco (k, findPart parts k) (findPart_mem (reach_hasKey hkreach)) v hv
    have hvend : (findPart parts v.pathname).is_end = false := by
      rw [hvpath]
      exact hkend
    exact hc v hvall hvw hvend c hcchoice hckey u hu

/-- Amended claim C4: in a well-formed graph — distinct group keys, each
variant carrying its group key as `pathname`, and file names distinguishing
nodes — in which every group holding a node is transitively reachable from
some start group via valid choice links passing only through non-end
groups, `unreachable_nodes` returns the empty list.  (The claim as frozen
omits the file-name and non-end conditions; `C4_counterexample` refutes
it.) -/
theorem C4_amended_unreachable_empty (parts : Graph)
    (hnd : keys_nodup parts) (hco : pathname_coherent parts)
    (hinj : filenames_injective parts)
    (hreach : ∀ node ∈ all_nodes parts, ReachableGroup parts node.pathname) :
    unreachable_nodes parts = [] := by
  by_cases hs : starting_nodes parts = []
  · have hall : all_nodes parts = [] := by
      by_contra hne
      obtain ⟨node, hnode⟩ := List.exists_mem_of_ne_nil _ hne
      obtain ⟨kv, hkv, hnv⟩ := List.mem_flatMap.mp hnode
      have hpath : node.pathname = kv.1 := hco kv hkv node hnv
      have hfp : findPart parts node.pathname = kv.2 := by
        rw [hpath]
        exact nodup_findPart hnd hkv
      exact reach_start_nonempty (hreach node hnode)
        (by rw [hfp]; exact List.ne_nil_of_mem hnv) hs
    unfold unreachable_nodes
    rw [if_pos hs, hall]
  · unfold unreachable_nodes
    rw [if_neg hs, List.filter_eq_nil_iff]
    intro node hnode
    obtain ⟨kv, hkv, hnv⟩ := List.mem_flatMap.mp hnode
    have hpath : node.pathname = kv.1 := hco kv hkv node hnv
    have hfp : findPart parts node.pathname = kv.2 := by
      rw [hpath]
      exact nodup_findPart hnd hkv
    have hmem := reach_variants_visited parts hnd hco hinj
      (hreach node hnode) node (by rw [hfp]; exact hnv)
    simp [hmem]

/-- Witness for the amended claim C4 at a concrete well-formed two-group
graph whose every node is reachable through non-end groups. -/
theorem C4_amended_unreachable_empty_witness :
    keys_nodup G4w ∧ pathname_coherent G4w ∧ filenames_injective G4w ∧
    unreachable_nodes G4w = [] := by
  have hA : ReachableGroup G4w "A" :=
    ReachableGroup.start "A" (by decide) (by decide)
  have hB : ReachableGroup G4w "B" :=
    ReachableGroup.step "A" "B" n4wa hA (by decide) (by decide) (by decide)
      (by decide)
  refine ⟨by decide, by decide, by decide,
    C4_amended_unreachable_empty G4w (by decide) (by decide) (by decide) ?_⟩
  intro node hnode
  have hcases : node = n4wa ∨ node = n4wb := by
    have hall : all_nodes G4w = [n4wa, n4wb] := rfl
    rw [hall] at hnode
    simpa using hnode
  rcases hcases with rfl | rfl
  · exact hA
  · exact hB

end StoryGen
